import Mathlib

/-!
# Verification of the mpc-lookup designation resolver

Shallow embedding of `src/mpclookup/handlers/external.py` (the `search` and
`get_synthetic_object` handlers) together with the parts of the Python
standard library they call: `str.replace` (specialised to the constant
pattern `"2011 "`), `urllib.parse.urlencode` / `quote_plus`, and
`urllib.parse.urlparse` / `ParseResult.geturl`.

Python strings are modelled as `List Char` (a Python `str` is a sequence of
Unicode code points).  Fallible stdlib code (`urlparse` can raise
`ValueError` on malformed netlocs) is modelled with `Except Unit`.
-/

/-! ## Generic character-list helpers -/

/-- Split a list at the first occurrence of `t`: returns the part strictly
before and the part strictly after, or `none` when `t` does not occur.
Models Python's `s.split(t, 1)` in the case where `t` is a single
character that occurs in `s` (together with `t in s` containment tests). -/
def splitFirst (t : Char) : List Char → Option (List Char × List Char)
  | [] => none
  | c :: cs =>
    if c = t then some ([], cs)
    else (splitFirst t cs).map (fun p => (c :: p.1, p.2))

/-- ASCII lowercase conversion of one character.  Models `str.lower` on the
scheme prefix of a URL; it is only applied after that prefix has been
checked to consist of ASCII characters, where ASCII case mapping coincides
with Python's Unicode case mapping. -/
def lowerChar (c : Char) : Char :=
  if 'A' ≤ c ∧ c ≤ 'Z' then Char.ofNat (c.toNat + 32) else c

/-- ASCII letter test: models `c.isascii() and c.isalpha()`. -/
def isAsciiAlpha (c : Char) : Bool :=
  ('a' ≤ c && c ≤ 'z') || ('A' ≤ c && c ≤ 'Z')

/-! ## The designation strip (`str.replace`)

The handler computes `fd = designation.replace("2011 ", "")` with
`_DESIGNATION_PREPEND = "2011 "`.  Python's `str.replace` scans left to
right; at each position it either removes an occurrence of the pattern and
continues scanning after it, or keeps the character and advances by one.
`stripDesignation` is that scan, specialised to the constant pattern. -/

/-- The constant `_DESIGNATION_PREPEND = "2011 "` from the handler module. -/
def designationPrepend : List Char := ['2', '0', '1', '1', ' ']

/-- `designation.replace("2011 ", "")`: remove every left-to-right
non-overlapping occurrence of `"2011 "`. -/
def stripDesignation : List Char → List Char
  | '2' :: '0' :: '1' :: '1' :: ' ' :: rest => stripDesignation rest
  | c :: cs => c :: stripDesignation cs
  | [] => []

/-! ## `urllib.parse.quote_plus` / `urlencode`

`urlencode({"designation": d})` produces `"designation=" + quote_plus(d)`
(the key `"designation"` is left unchanged by quoting).  `quote_plus`
operates on the UTF-8 encoding of the string: ASCII alphanumerics and
`_.-~` are kept, a space becomes `'+'`, and every other byte becomes an
uppercase percent escape. -/

/-- UTF-8 encoding of one code point `n = c.toNat`, as a list of byte
values. -/
def utf8Bytes (c : Char) : List Nat :=
  if c.toNat < 128 then [c.toNat]
  else if c.toNat < 2048 then [192 + c.toNat / 64, 128 + c.toNat % 64]
  else if c.toNat < 65536 then
    [224 + c.toNat / 4096, 128 + c.toNat / 64 % 64, 128 + c.toNat % 64]
  else
    [240 + c.toNat / 262144, 128 + c.toNat / 4096 % 64,
     128 + c.toNat / 64 % 64, 128 + c.toNat % 64]

/-- The characters `quote_plus` never escapes (Python's `_ALWAYS_SAFE`:
ASCII letters, digits and `_.-~`; `urlencode` passes `safe=''`). -/
def isAlwaysSafe (c : Char) : Bool :=
  ('a' ≤ c && c ≤ 'z') || ('A' ≤ c && c ≤ 'Z') || ('0' ≤ c && c ≤ '9')
    || c == '_' || c == '.' || c == '-' || c == '~'

/-- Uppercase hexadecimal digit for `n < 16`. -/
def hexDigitUpper (n : Nat) : Char :=
  if n < 10 then Char.ofNat (48 + n) else Char.ofNat (55 + n)

/-- `%XX` escape of one byte. -/
def pctByte (b : Nat) : List Char := ['%', hexDigitUpper (b / 16), hexDigitUpper (b % 16)]

/-- `quote_plus` on a single character: safe characters are kept, a space
becomes `'+'`, everything else has each of its UTF-8 bytes percent
escaped. -/
def quotePlusChar (c : Char) : List Char :=
  if isAlwaysSafe c then [c]
  else if c = ' ' then ['+']
  else (utf8Bytes c).flatMap pctByte

/-- `urllib.parse.quote_plus(s)` (with `safe=''`, UTF-8 encoding). -/
def quotePlus (s : List Char) : List Char := s.flatMap quotePlusChar

/-- `urllib.parse.urlencode({"designation": d})`: the single key
`"designation"` (unchanged by quoting) joined to the quoted value by `=`. -/
def urlencodeDesignation (d : List Char) : List Char :=
  ('d' :: 'e' :: 's' :: 'i' :: 'g' :: 'n' :: 'a' :: 't' :: 'i' :: 'o' :: 'n' :: '=' :: [])
    ++ quotePlus d

/-! ## `urllib.parse.urlsplit` / `urlparse` / `geturl`

Modelled from CPython `Lib/urllib/parse.py` (3.11+).  `urlsplit` first
strips leading C0-control-or-space characters, removes every tab, CR and
LF, then splits off the scheme, the netloc, the fragment and the query;
`urlparse` additionally splits `;params` from the last path segment.
The two netloc validation steps that can raise `ValueError` are modelled
with `Except Unit`:
* mismatched `[`/`]` in the netloc always raises ("Invalid IPv6 URL");
  a bracketed host is further validated as an IPv6/IPvFuture address,
  which we over-approximate as an error (no URL built by the handlers
  under verification ever has a bracket in its netloc);
* `_checknetloc` never raises on an all-ASCII (or empty) netloc and is
  otherwise NFKC-normalisation based, which we over-approximate as an
  error (the handlers only produce ASCII netlocs). -/

/-- Result of `urlsplit`. -/
structure SplitResult where
  scheme : List Char
  netloc : List Char
  path : List Char
  query : List Char
  fragment : List Char
  deriving Repr, DecidableEq

/-- Result of `urlparse`. -/
structure ParseResult where
  scheme : List Char
  netloc : List Char
  path : List Char
  params : List Char
  query : List Char
  fragment : List Char
  deriving Repr, DecidableEq

/-- `url.lstrip(_WHATWG_C0_CONTROL_OR_SPACE)`: drop leading characters with
code point `≤ 0x20`. -/
def lstripControlOrSpace (l : List Char) : List Char :=
  l.dropWhile (fun c => c.toNat ≤ 32)

/-- `url.replace('\t', '').replace('\r', '').replace('\n', '')`
(`_UNSAFE_URL_BYTES_TO_REMOVE`): since the three patterns are distinct
single characters, the three sequential replaces equal one filter. -/
def stripUnsafeBytes (l : List Char) : List Char :=
  l.filter (fun c => !(c == '\t' || c == '\r' || c == '\n'))

/-- Characters in Python's `scheme_chars` (ASCII letters, digits, `+-.`). -/
def isSchemeChar (c : Char) : Bool :=
  isAsciiAlpha c || ('0' ≤ c && c ≤ '9') || c == '+' || c == '-' || c == '.'

/-- The scheme detection step of `urlsplit`: if the first `':'` has a
non-empty prefix before it whose first character is an ASCII letter and
whose remaining characters are scheme characters, that prefix (lowercased)
is the scheme and parsing continues after the `':'`. -/
def schemeSplit (url : List Char) : List Char × List Char :=
  match splitFirst ':' url with
  | some (before, after) =>
    if !before.isEmpty && isAsciiAlpha (before.headD ' ')
        && (before.drop 1).all isSchemeChar then
      (before.map lowerChar, after)
    else ([], url)
  | none => ([], url)

/-- Not a netloc delimiter (`_splitnetloc` scans up to `/`, `?` or `#`). -/
def notNetlocDelim (c : Char) : Bool := !(c == '/' || c == '?' || c == '#')

/-- The netloc step of `urlsplit`: when the remainder starts with `//`,
take the netloc up to the first `/`, `?` or `#` and validate it (see the
section comment for the bracket over-approximation). -/
def netlocSplit (url : List Char) : Except Unit (List Char × List Char) :=
  if url.take 2 = ['/', '/'] then
    let rest := url.drop 2
    let netloc := rest.takeWhile notNetlocDelim
    let rest2 := rest.dropWhile notNetlocDelim
    if '[' ∈ netloc ∨ ']' ∈ netloc then .error ()
    else .ok (netloc, rest2)
  else .ok ([], url)

/-- `_checknetloc` succeeds without raising: empty or all-ASCII netlocs
always pass (non-ASCII netlocs are over-approximated as failing). -/
def checknetlocOk (netloc : List Char) : Bool :=
  netloc.isEmpty || netloc.all (fun c => c.toNat < 128)

/-- `url.split('#', 1)` guarded by `'#' in url` (first component is the
part kept as the URL, second the fragment, empty when there is none). -/
def hashSplit (l : List Char) : List Char × List Char :=
  match splitFirst '#' l with
  | some (a, b) => (a, b)
  | none => (l, [])

/-- `url.split('?', 1)` guarded by `'?' in url`. -/
def questionSplit (l : List Char) : List Char × List Char :=
  match splitFirst '?' l with
  | some (a, b) => (a, b)
  | none => (l, [])

/-- `urllib.parse.urlsplit(url)` with default arguments. -/
def urlsplitE (url0 : List Char) : Except Unit SplitResult :=
  let url1 := stripUnsafeBytes (lstripControlOrSpace url0)
  let sp := schemeSplit url1
  match netlocSplit sp.2 with
  | .error e => .error e
  | .ok nl =>
    let fs := hashSplit nl.2
    let qs := questionSplit fs.1
    if checknetlocOk nl.1 then
      .ok ⟨sp.1, nl.1, qs.1, qs.2, fs.2⟩
    else .error ()

/-- `_splitparams(url)` (only called when `';' in url`): split the params
after the `';'` of the last path segment, if any. -/
def splitParams (url : List Char) : List Char × List Char :=
  if url.contains '/' then
    match splitFirst ';' ((url.reverse.takeWhile (fun c => c != '/')).reverse) with
    | none => (url, [])
    | some (a, b) =>
      (((url.reverse.dropWhile (fun c => c != '/')).reverse) ++ a, b)
  else
    match splitFirst ';' url with
    | none => (url, [])
    | some (a, b) => (a, b)

/-- `urllib.parse.urlparse(url)` with default arguments. -/
def urlparseE (url : List Char) : Except Unit ParseResult :=
  match urlsplitE url with
  | .error e => .error e
  | .ok r =>
    if r.path.contains ';' then
      let pp := splitParams r.path
      .ok ⟨r.scheme, r.netloc, pp.1, pp.2, r.query, r.fragment⟩
    else
      .ok ⟨r.scheme, r.netloc, r.path, [], r.query, r.fragment⟩

/-- `ParseResult.geturl()` = `urlunparse` over the six components:
re-attach a non-empty params with `;`, re-attach the netloc after `//`
when present, prefix a non-empty scheme with `:`, and re-attach non-empty
query and fragment with `?` and `#`. -/
def geturl (r : ParseResult) : List Char :=
  let u1 := if r.params.isEmpty then r.path else r.path ++ ';' :: r.params
  let u2 :=
    if !r.netloc.isEmpty || u1.take 2 == ['/', '/'] then
      '/' :: '/' :: r.netloc
        ++ (if !u1.isEmpty && u1.take 1 != ['/'] then '/' :: u1 else u1)
    else u1
  let u3 := if r.scheme.isEmpty then u2 else r.scheme ++ ':' :: u2
  let u4 := if r.query.isEmpty then u3 else u3 ++ '?' :: r.query
  if r.fragment.isEmpty then u4 else u4 ++ '#' :: r.fragment

/-! ## The two handlers -/

/-- The constant part of the external MPC URL built by the `search`
handler: `"https://www.minorplanetcenter.net/db_search/show_object?object_id="`. -/
def mpcUrlStart : List Char :=
  "https://www.minorplanetcenter.net/db_search/show_object?object_id=".data

/-- The body of the `search` handler.  `base` models
`str(request.url_for("get_synthetic_object"))`, the absolute URL of the
synthetic-object route for the current request; `designation` is the query
parameter.  The handler computes `fd = designation.replace("2011 ", "")`,
then returns `urlparse(u).geturl()` where `u` is either the external MPC
URL with `fd` interpolated into its query (when `" " in fd`) or
`base + "?" + urlencode({"designation": designation})`.  The two
`logger.info` calls do not affect the returned value and are omitted. -/
def search (base designation : List Char) : Except Unit (List Char) :=
  let fd := stripDesignation designation
  if ' ' ∈ fd then
    (urlparseE (mpcUrlStart ++ fd)).map geturl
  else
    (urlparseE (base ++ '?' :: urlencodeDesignation designation)).map geturl

/-- A FastAPI `HTMLResponse`: its content string and status code. -/
structure HTMLResponse where
  content : List Char
  status_code : Nat
  deriving Repr, DecidableEq

/-- The part of the `get_synthetic_object` f-string before `{designation}`. -/
def synthBodyHead : List Char :=
  "\n        <html>\n            <body>\n                <p>".data

/-- The part of the `get_synthetic_object` f-string after `{designation}`. -/
def synthBodyTail : List Char :=
  " appears to be a synthetic object\n                from the DP0.3 input simulation.</p>\n            </body>\n        </html>\n        ".data

/-- The body of the `get_synthetic_object` handler: an `HTMLResponse` with
the designation interpolated into the fixed HTML template and status 200. -/
def get_synthetic_object (designation : List Char) : HTMLResponse :=
  ⟨synthBodyHead ++ designation ++ synthBodyTail, 200⟩

/-! ## Decoding (for the round-trip claim)

Standard strict `application/x-www-form-urlencoded` decoding of a query
value: `+` denotes a space, `%XX` a byte, any other ASCII character
itself; the resulting byte sequence is then UTF-8 decoded. -/

/-- Hexadecimal digit value. -/
def hexVal (c : Char) : Option Nat :=
  if '0' ≤ c && c ≤ '9' then some (c.toNat - 48)
  else if 'A' ≤ c && c ≤ 'F' then some (c.toNat - 55)
  else if 'a' ≤ c && c ≤ 'f' then some (c.toNat - 87)
  else none

/-- Percent/plus decoding of a form-encoded value to its byte sequence. -/
def formDecodeBytes : List Char → Option (List Nat)
  | [] => some []
  | c :: rest =>
    if c = '%' then
      match rest with
      | h :: l :: rest2 =>
        match hexVal h, hexVal l with
        | some hv, some lv => (formDecodeBytes rest2).map (fun bs => (16 * hv + lv) :: bs)
        | _, _ => none
      | _ => none
    else if c = '+' then (formDecodeBytes rest).map (fun bs => 32 :: bs)
    else if c.toNat < 128 then (formDecodeBytes rest).map (fun bs => c.toNat :: bs)
    else none

/-- Decode the continuation of a two-byte UTF-8 sequence with lead byte
`b`: one continuation byte in `[0x80, 0xC0)`, rejecting overlong forms. -/
def decode2 (b : Nat) : List Nat → Option (Nat × List Nat)
  | b1 :: rest2 =>
    if 128 ≤ b1 ∧ b1 < 192 then
      if 128 ≤ (b - 192) * 64 + (b1 - 128) then
        some ((b - 192) * 64 + (b1 - 128), rest2)
      else none
    else none
  | [] => none

/-- Decode the continuation of a three-byte UTF-8 sequence with lead byte
`b`, rejecting overlong forms and surrogates. -/
def decode3 (b : Nat) : List Nat → Option (Nat × List Nat)
  | b1 :: b2 :: rest2 =>
    if (128 ≤ b1 ∧ b1 < 192) ∧ (128 ≤ b2 ∧ b2 < 192) then
      if 2048 ≤ (b - 224) * 4096 + (b1 - 128) * 64 + (b2 - 128)
          ∧ ((b - 224) * 4096 + (b1 - 128) * 64 + (b2 - 128) < 55296
             ∨ 57343 < (b - 224) * 4096 + (b1 - 128) * 64 + (b2 - 128)) then
        some ((b - 224) * 4096 + (b1 - 128) * 64 + (b2 - 128), rest2)
      else none
    else none
  | _ => none

/-- Decode the continuation of a four-byte UTF-8 sequence with lead byte
`b`, rejecting overlong forms and out-of-range code points. -/
def decode4 (b : Nat) : List Nat → Option (Nat × List Nat)
  | b1 :: b2 :: b3 :: rest2 =>
    if (128 ≤ b1 ∧ b1 < 192) ∧ (128 ≤ b2 ∧ b2 < 192) ∧ (128 ≤ b3 ∧ b3 < 192) then
      if 65536 ≤ (b - 240) * 262144 + (b1 - 128) * 4096 + (b2 - 128) * 64 + (b3 - 128)
          ∧ (b - 240) * 262144 + (b1 - 128) * 4096 + (b2 - 128) * 64 + (b3 - 128)
            < 1114112 then
        some ((b - 240) * 262144 + (b1 - 128) * 4096 + (b2 - 128) * 64 + (b3 - 128),
          rest2)
      else none
    else none
  | _ => none

/-- Decode one code point from the front of a byte sequence (strict UTF-8:
overlong forms, surrogates, out-of-range code points and stray
continuation bytes are rejected). -/
def utf8DecodeStep : List Nat → Option (Nat × List Nat)
  | [] => none
  | b :: rest =>
    if b < 128 then some (b, rest)
    else if b < 192 then none
    else if b < 224 then decode2 b rest
    else if b < 240 then decode3 b rest
    else if b < 248 then decode4 b rest
    else none

set_option maxRecDepth 4000 in
/-- Strict UTF-8 decoding of a byte sequence: decode code points one at a
time with `utf8DecodeStep`. -/
def utf8Decode : List Nat → Option (List Char)
  | [] => some []
  | b :: rest =>
    match h : utf8DecodeStep (b :: rest) with
    | some (v, rest2) => (utf8Decode rest2).map (fun cs => Char.ofNat v :: cs)
    | none => none
termination_by l => l.length
decreasing_by
  simp only [utf8DecodeStep] at h
  split_ifs at h with h1 h2 h3 h4 h5
  · injection h with h6
    cases h6
    simp
  · rcases rest with - | ⟨b1, rest3⟩
    · simp [decode2] at h
    · simp only [decode2] at h
      split_ifs at h
      injection h with h6
      cases h6
      simp
      omega
  · rcases rest with - | ⟨b1, - | ⟨b2, rest3⟩⟩
    · simp [decode3] at h
    · simp [decode3] at h
    · simp only [decode3] at h
      split_ifs at h
      injection h with h6
      cases h6
      simp
      omega
  · rcases rest with - | ⟨b1, - | ⟨b2, - | ⟨b3, rest3⟩⟩⟩
    · simp [decode4] at h
    · simp [decode4] at h
    · simp [decode4] at h
    · simp only [decode4] at h
      split_ifs at h
      injection h with h6
      cases h6
      simp
      omega

/-- Full form decoding: percent/plus decode to bytes, then UTF-8 decode. -/
def formDecode (s : List Char) : Option (List Char) :=
  (formDecodeBytes s).bind utf8Decode

/-! ## Derived shapes used in the claim statements -/

/-- `scheme://host path` assembled as the `base` URL string handed to
`search` (what `request.url_for` produces: scheme, `://`, host, path). -/
def mkBase (scheme host path : List Char) : List Char :=
  scheme ++ ':' :: '/' :: '/' :: (host ++ path)

/-- Well-formedness of the scheme part of a `base` URL: non-empty, all
ASCII lowercase letters. -/
def goodScheme (s : List Char) : Bool :=
  !s.isEmpty && s.all (fun c => 'a' ≤ c && c ≤ 'z')

/-- Well-formedness of the host part of a `base` URL: non-empty, ASCII,
and free of netloc delimiters, brackets and tab/CR/LF. -/
def goodHost (h : List Char) : Bool :=
  !h.isEmpty && h.all (fun c => c.toNat < 128
    && !(c == '/' || c == '?' || c == '#' || c == '[' || c == ']'
         || c == '\t' || c == '\r' || c == '\n'))

/-- Well-formedness of the path part of a `base` URL: starts with `/` and
is free of `?`, `#`, `;` and tab/CR/LF. -/
def goodPath (p : List Char) : Bool :=
  p.take 1 == ['/'] && p.all (fun c =>
    !(c == '?' || c == '#' || c == ';' || c == '\t' || c == '\r' || c == '\n'))

/-- The query part (before any `#`) of a string placed after `?` in a URL. -/
def queryPartOf (q : List Char) : List Char :=
  match splitFirst '#' q with
  | none => q
  | some (a, _) => a

/-- The fragment part (after the first `#`, empty if none) of a string
placed after `?` in a URL. -/
def fragPartOf (q : List Char) : List Char :=
  match splitFirst '#' q with
  | none => []
  | some (_, b) => b

/-- What the `urlparse`/`geturl` round trip makes of the part of a URL
after its `?`: unchanged, except that a first `#` that is also the last
character is dropped (its empty fragment is not re-attached). -/
def normFrag (q : List Char) : List Char :=
  queryPartOf q ++ (if fragPartOf q = [] then [] else '#' :: fragPartOf q)

/-- A concrete well-formed base URL for the synthetic-object route, used
in the concrete evaluations below. -/
def exampleBase : List Char :=
  "http://example.org/mpc-lookup/synthetic_object".data

/-! ## Helper lemmas: characters -/

theorem char_le_iff {a b : Char} : a ≤ b ↔ a.toNat ≤ b.toNat := by
  simp [Char.le_def, UInt32.le_def, BitVec.le_def, Char.toNat, UInt32.toNat]

theorem char_valid_toNat (c : Char) :
    c.toNat < 55296 ∨ (57343 < c.toNat ∧ c.toNat < 1114112) := by
  have h := c.valid
  simp only [UInt32.isValidChar, Nat.isValidChar, Char.toNat] at h ⊢
  rcases h with h | h
  · left; omega
  · right; omega

theorem char_toNat_lt (c : Char) : c.toNat < 1114112 := by
  rcases char_valid_toNat c with h | h <;> omega

theorem char_ne_of_toNat_ne {c d : Char} (h : c.toNat ≠ d.toNat) : c ≠ d := by
  intro he
  exact h (by rw [he])

/-! ## Helper lemmas: list scanning -/

theorem splitFirst_eq_none {t : Char} : ∀ {l : List Char}, t ∉ l → splitFirst t l = none
  | [], _ => rfl
  | c :: cs, h => by
    have hct : ¬ c = t := fun he => h (he ▸ List.mem_cons_self c cs)
    have hcs : t ∉ cs := fun hm => h (List.mem_cons_of_mem c hm)
    simp [splitFirst, hct, splitFirst_eq_none hcs]

theorem splitFirst_append {t : Char} :
    ∀ {A : List Char}, t ∉ A → ∀ (x : List Char),
      splitFirst t (A ++ x) = (splitFirst t x).map (fun p => (A ++ p.1, p.2))
  | [], _, x => by
    cases h : splitFirst t x <;> simp [h]
  | c :: A, h, x => by
    have hct : ¬ c = t := fun he => h (he ▸ List.mem_cons_self c A)
    have hA : t ∉ A := fun hm => h (List.mem_cons_of_mem c hm)
    simp only [List.cons_append, splitFirst, hct, if_false, List.append_eq]
    rw [splitFirst_append hA x]
    cases splitFirst t x <;> simp

theorem splitFirst_cons_self (t : Char) (l : List Char) :
    splitFirst t (t :: l) = some ([], l) := by
  simp [splitFirst]

theorem splitFirst_append_self {t : Char} {A : List Char} (h : t ∉ A) (B : List Char) :
    splitFirst t (A ++ t :: B) = some (A, B) := by
  rw [splitFirst_append h, splitFirst_cons_self]
  simp

theorem eq_of_splitFirst {t : Char} :
    ∀ {l a b : List Char}, splitFirst t l = some (a, b) → l = a ++ t :: b
  | [], a, b, h => by simp [splitFirst] at h
  | c :: cs, a, b, h => by
    by_cases hct : c = t
    · subst hct
      simp only [splitFirst_cons_self, Option.some_inj, Prod.mk.injEq] at h
      obtain ⟨h1, h2⟩ := h
      subst h1
      subst h2
      simp
    · simp only [splitFirst, hct, if_false, Option.map_eq_some'] at h
      obtain ⟨p, hp, he⟩ := h
      cases he
      simpa using eq_of_splitFirst hp

theorem takeWhile_append_of_all {p : Char → Bool} :
    ∀ {A : List Char}, (∀ c ∈ A, p c = true) → ∀ (x : List Char),
      (A ++ x).takeWhile p = A ++ x.takeWhile p
  | [], _, x => rfl
  | c :: A, h, x => by
    have hc : p c = true := h c (List.mem_cons_self c A)
    have hA : ∀ c ∈ A, p c = true := fun d hd => h d (List.mem_cons_of_mem c hd)
    simp [List.takeWhile_cons, hc, takeWhile_append_of_all hA x]

theorem dropWhile_append_of_all {p : Char → Bool} :
    ∀ {A : List Char}, (∀ c ∈ A, p c = true) → ∀ (x : List Char),
      (A ++ x).dropWhile p = x.dropWhile p
  | [], _, x => rfl
  | c :: A, h, x => by
    have hc : p c = true := h c (List.mem_cons_self c A)
    have hA : ∀ c ∈ A, p c = true := fun d hd => h d (List.mem_cons_of_mem c hd)
    simp [List.dropWhile_cons, hc, dropWhile_append_of_all hA x]

theorem map_id_of_all {f : Char → Char} :
    ∀ {l : List Char}, (∀ c ∈ l, f c = c) → l.map f = l
  | [], _ => rfl
  | c :: l, h => by
    have hc := h c (List.mem_cons_self c l)
    have hl : ∀ c ∈ l, f c = c := fun d hd => h d (List.mem_cons_of_mem c hd)
    simp [hc, map_id_of_all hl]


/-! ## Helper lemmas: character classes -/

theorem lower_bounds {c : Char} (h1 : 'a' ≤ c) (h2 : c ≤ 'z') :
    97 ≤ c.toNat ∧ c.toNat ≤ 122 := by
  rw [char_le_iff] at h1 h2
  have ha : ('a').toNat = 97 := by decide
  have hz : ('z').toNat = 122 := by decide
  omega

theorem not_unsafe_of_toNat {c : Char} (h : 14 ≤ c.toNat) :
    (!(c == '\t' || c == '\r' || c == '\n')) = true := by
  have h1 : c ≠ '\t' := char_ne_of_toNat_ne (by
    have h9 : ('\t').toNat = 9 := by decide
    omega)
  have h2 : c ≠ '\r' := char_ne_of_toNat_ne (by
    have h13 : ('\r').toNat = 13 := by decide
    omega)
  have h3 : c ≠ '\n' := char_ne_of_toNat_ne (by
    have h10 : ('\n').toNat = 10 := by decide
    omega)
  simp [h1, h2, h3]

theorem goodScheme_spec {s : List Char} (h : goodScheme s = true) :
    s ≠ [] ∧ ∀ c ∈ s, 97 ≤ c.toNat ∧ c.toNat ≤ 122 := by
  simp only [goodScheme, Bool.and_eq_true, List.all_eq_true,
    decide_eq_true_eq] at h
  refine ⟨by simpa [List.isEmpty_iff] using h.1, fun c hc => ?_⟩
  have hc2 := h.2 c hc
  exact lower_bounds hc2.1 hc2.2

theorem goodHost_spec {h0 : List Char} (h : goodHost h0 = true) :
    h0 ≠ [] ∧ ∀ c ∈ h0, c.toNat < 128 ∧ c ≠ '/' ∧ c ≠ '?' ∧ c ≠ '#'
      ∧ c ≠ '[' ∧ c ≠ ']' ∧ (!(c == '\t' || c == '\r' || c == '\n')) = true := by
  simp only [goodHost, Bool.and_eq_true, List.all_eq_true] at h
  refine ⟨by simpa [List.isEmpty_iff] using h.1, fun c hc => ?_⟩
  have hc2 := h.2 c hc
  simp only [Bool.and_eq_true, Bool.not_eq_true', Bool.or_eq_false_iff,
    beq_eq_false_iff_ne, decide_eq_true_eq] at hc2
  have h6 : c ≠ '\t' := by tauto
  have h7 : c ≠ '\r' := by tauto
  have h8 : c ≠ '\n' := by tauto
  exact ⟨by tauto, by tauto, by tauto, by tauto, by tauto, by tauto,
    by simp [h6, h7, h8]⟩

theorem goodPath_spec {p : List Char} (h : goodPath p = true) :
    (∃ p2, p = '/' :: p2) ∧ ∀ c ∈ p, c ≠ '?' ∧ c ≠ '#' ∧ c ≠ ';'
      ∧ (!(c == '\t' || c == '\r' || c == '\n')) = true := by
  simp only [goodPath, Bool.and_eq_true, List.all_eq_true] at h
  constructor
  · have h1 : p.take 1 = ['/'] := by simpa using h.1
    cases p with
    | nil => simp at h1
    | cons a p2 =>
      simp only [List.take_succ_cons, List.take_zero, List.cons.injEq] at h1
      exact ⟨p2, by rw [h1.1]⟩
  · intro c hc
    have hc2 := h.2 c hc
    simp only [Bool.not_eq_true', Bool.or_eq_false_iff, beq_eq_false_iff_ne] at hc2
    have h4 : c ≠ '\t' := by tauto
    have h5 : c ≠ '\r' := by tauto
    have h6 : c ≠ '\n' := by tauto
    exact ⟨by tauto, by tauto, by tauto, by simp [h4, h5, h6]⟩

/-! ## Helper lemmas: `quote_plus` output character range -/

theorem utf8Bytes_lt {c : Char} : ∀ b ∈ utf8Bytes c, b < 256 := by
  intro b hb
  have hv := char_toNat_lt c
  unfold utf8Bytes at hb
  split_ifs at hb <;> simp only [List.mem_cons, List.mem_singleton,
    List.not_mem_nil, or_false] at hb <;> omega

theorem hexDigitUpper_range : ∀ n, n < 16 →
    48 ≤ (hexDigitUpper n).toNat ∧ (hexDigitUpper n).toNat ≤ 70 := by decide

theorem isAlwaysSafe_bounds {c : Char} (h : isAlwaysSafe c = true) :
    45 ≤ c.toNat ∧ c.toNat ≤ 126 := by
  simp only [isAlwaysSafe, Bool.or_eq_true, Bool.and_eq_true,
    decide_eq_true_eq, beq_iff_eq] at h
  rcases h with ((((((⟨h1, h2⟩ | ⟨h1, h2⟩) | ⟨h1, h2⟩) | h) | h) | h) | h)
  · have := lower_bounds h1 h2
    omega
  · rw [char_le_iff] at h1 h2
    have hb : ('A').toNat = 65 ∧ ('Z').toNat = 90 := by decide
    omega
  · rw [char_le_iff] at h1 h2
    have hb : ('0').toNat = 48 ∧ ('9').toNat = 57 := by decide
    omega
  · subst h; decide
  · subst h; decide
  · subst h; decide
  · subst h; decide

theorem quotePlusChar_toNat {c : Char} : ∀ x ∈ quotePlusChar c, 37 ≤ x.toNat ∧ x.toNat ≤ 126 := by
  intro x hx
  unfold quotePlusChar at hx
  split_ifs at hx with hsafe hspace
  · simp only [List.mem_singleton] at hx
    subst hx
    have := isAlwaysSafe_bounds hsafe
    omega
  · simp only [List.mem_singleton] at hx
    subst hx
    decide
  · simp only [List.mem_flatMap, pctByte, List.mem_cons, List.mem_singleton,
      List.not_mem_nil, or_false] at hx
    obtain ⟨b, hb, hx⟩ := hx
    have hb256 : b < 256 := utf8Bytes_lt b hb
    rcases hx with hx | hx | hx
    · subst hx; decide
    · subst hx
      have := hexDigitUpper_range (b / 16) (by omega)
      omega
    · subst hx
      have := hexDigitUpper_range (b % 16) (by omega)
      omega

theorem quotePlus_toNat {d : List Char} : ∀ x ∈ quotePlus d, 37 ≤ x.toNat ∧ x.toNat ≤ 126 := by
  intro x hx
  simp only [quotePlus, List.mem_flatMap] at hx
  obtain ⟨c, _, hxc⟩ := hx
  exact quotePlusChar_toNat x hxc

theorem quotePlus_not_unsafe {d : List Char} :
    ∀ x ∈ quotePlus d, (!(x == '\t' || x == '\r' || x == '\n')) = true := by
  intro x hx
  exact not_unsafe_of_toNat (by have := quotePlus_toNat x hx; omega)

theorem quotePlus_ne_hash {d : List Char} : ∀ x ∈ quotePlus d, x ≠ '#' := by
  intro x hx
  have := quotePlus_toNat x hx
  exact char_ne_of_toNat_ne (by
    have h35 : ('#').toNat = 35 := by decide
    omega)

/-! ## Helper lemmas: the cleanup stage -/

theorem lstrip_cons_of_toNat {c : Char} (h : 97 ≤ c.toNat) (l : List Char) :
    lstripControlOrSpace (c :: l) = c :: l := by
  have hc : (c.toNat ≤ 32) = False := by simp; omega
  simp [lstripControlOrSpace, List.dropWhile_cons, hc]

theorem stripUnsafe_append (a b : List Char) :
    stripUnsafeBytes (a ++ b) = stripUnsafeBytes a ++ stripUnsafeBytes b :=
  List.filter_append a b

theorem stripUnsafe_id_of {l : List Char}
    (h : ∀ c ∈ l, (!(c == '\t' || c == '\r' || c == '\n')) = true) :
    stripUnsafeBytes l = l :=
  List.filter_eq_self.mpr h

theorem stripUnsafe_cons_keep {c : Char}
    (h : (!(c == '\t' || c == '\r' || c == '\n')) = true) (l : List Char) :
    stripUnsafeBytes (c :: l) = c :: stripUnsafeBytes l := by
  simp only [stripUnsafeBytes, List.filter_cons, h, if_true]

/-! ## Helper lemmas: queryPartOf / fragPartOf / normFrag -/

theorem queryPartOf_append_of_not_hash {A : List Char} (hA : '#' ∉ A) (z : List Char) :
    queryPartOf (A ++ z) = A ++ queryPartOf z := by
  unfold queryPartOf
  rw [splitFirst_append hA]
  cases splitFirst '#' z <;> simp

theorem queryPartOf_cons_of_ne {c : Char} (h : c ≠ '#') (z : List Char) :
    queryPartOf (c :: z) = c :: queryPartOf z := by
  unfold queryPartOf
  simp only [splitFirst, h, if_false]
  cases splitFirst '#' z <;> simp

theorem fragPartOf_append_of_not_hash {A : List Char} (hA : '#' ∉ A) (z : List Char) :
    fragPartOf (A ++ z) = fragPartOf z := by
  unfold fragPartOf
  rw [splitFirst_append hA]
  cases splitFirst '#' z <;> simp

theorem normFrag_of_not_hash {q : List Char} (h : '#' ∉ q) : normFrag q = q := by
  unfold normFrag queryPartOf fragPartOf
  rw [splitFirst_eq_none h]
  simp

theorem normFrag_append_of_not_hash {A : List Char} (hA : '#' ∉ A) (z : List Char) :
    normFrag (A ++ z) = A ++ normFrag z := by
  unfold normFrag
  rw [queryPartOf_append_of_not_hash hA, fragPartOf_append_of_not_hash hA,
    List.append_assoc]

/-! ## The `urlsplit` stages on handler-shaped URLs -/

theorem isAsciiAlpha_of_lower {c : Char} (h1 : 97 ≤ c.toNat) (h2 : c.toNat ≤ 122) :
    isAsciiAlpha c = true := by
  simp only [isAsciiAlpha, Bool.or_eq_true, Bool.and_eq_true, decide_eq_true_eq,
    char_le_iff]
  left
  have ha : ('a').toNat = 97 := by decide
  have hz : ('z').toNat = 122 := by decide
  omega

theorem isSchemeChar_of_lower {c : Char} (h1 : 97 ≤ c.toNat) (h2 : c.toNat ≤ 122) :
    isSchemeChar c = true := by
  simp only [isSchemeChar, Bool.or_eq_true]
  exact Or.inl (Or.inl (Or.inl (Or.inl (isAsciiAlpha_of_lower h1 h2))))

theorem lowerChar_of_lower {c : Char} (h1 : 97 ≤ c.toNat) : lowerChar c = c := by
  unfold lowerChar
  rw [if_neg]
  intro hAZ
  rw [char_le_iff, char_le_iff] at hAZ
  have hZ : ('Z').toNat = 90 := by decide
  omega

theorem schemeSplit_shaped {s : List Char} (hs : goodScheme s = true) (rest : List Char) :
    schemeSplit (s ++ ':' :: rest) = (s, rest) := by
  obtain ⟨hne, hall⟩ := goodScheme_spec hs
  have hnc : ':' ∉ s := by
    intro hm
    have := hall _ hm
    have h58 : (':').toNat = 58 := by decide
    omega
  obtain ⟨c0, s', rfl⟩ := List.exists_cons_of_ne_nil hne
  have hc0 := hall c0 (List.mem_cons_self c0 s')
  have hcond : (!(c0 :: s').isEmpty && isAsciiAlpha ((c0 :: s').headD ' ')
      && (List.drop 1 (c0 :: s')).all isSchemeChar) = true := by
    simp only [List.isEmpty_cons, Bool.not_false, List.headD_cons, List.drop_one,
      List.tail_cons, Bool.true_and, Bool.and_eq_true, List.all_eq_true]
    exact ⟨isAsciiAlpha_of_lower hc0.1 hc0.2, fun c hc =>
      isSchemeChar_of_lower (hall c (List.mem_cons_of_mem c0 hc)).1
        (hall c (List.mem_cons_of_mem c0 hc)).2⟩
  unfold schemeSplit
  rw [splitFirst_append_self hnc]
  simp only [hcond, if_true]
  rw [map_id_of_all (fun c hc => lowerChar_of_lower (hall c hc).1)]

theorem notNetlocDelim_of (c : Char) (h1 : c ≠ '/') (h2 : c ≠ '?') (h3 : c ≠ '#') :
    notNetlocDelim c = true := by
  simp [notNetlocDelim, h1, h2, h3]

theorem netlocSplit_shaped {h0 : List Char} (hh : goodHost h0 = true)
    {p : List Char} (hp : goodPath p = true) (tail : List Char) :
    netlocSplit ('/' :: '/' :: (h0 ++ (p ++ tail))) = .ok (h0, p ++ tail) := by
  obtain ⟨-, hall⟩ := goodHost_spec hh
  obtain ⟨⟨p2, rfl⟩, -⟩ := goodPath_spec hp
  have htw : ∀ c ∈ h0, notNetlocDelim c = true := fun c hc =>
    notNetlocDelim_of c (hall c hc).2.1 (hall c hc).2.2.1 (hall c hc).2.2.2.1
  have hslash : notNetlocDelim '/' = false := by decide
  unfold netlocSplit
  rw [if_pos (by simp)]
  simp only [List.drop_succ_cons, List.drop_zero]
  rw [takeWhile_append_of_all htw, dropWhile_append_of_all htw]
  simp only [List.cons_append, List.takeWhile_cons, List.dropWhile_cons, hslash,
    Bool.false_eq_true, if_false, List.append_nil]
  rw [if_neg]
  · rintro (hm | hm)
    · exact (hall _ hm).2.2.2.2.1 rfl
    · exact (hall _ hm).2.2.2.2.2.1 rfl

theorem checknetlocOk_of_ascii {h0 : List Char} (h : ∀ c ∈ h0, c.toNat < 128) :
    checknetlocOk h0 = true := by
  simp only [checknetlocOk, Bool.or_eq_true, List.all_eq_true, decide_eq_true_eq]
  exact Or.inr h

theorem hashSplit_shaped {p : List Char} (hp : '#' ∉ p) (q : List Char) :
    hashSplit (p ++ '?' :: q) = (p ++ '?' :: queryPartOf q, fragPartOf q) := by
  have hA : '#' ∉ p ++ ['?'] := by
    simp only [List.mem_append, List.mem_singleton]
    rintro (hm | hm)
    · exact hp hm
    · exact absurd hm (by decide)
  have hsh : p ++ '?' :: q = (p ++ ['?']) ++ q := by simp
  unfold hashSplit queryPartOf fragPartOf
  rw [hsh, splitFirst_append hA]
  cases splitFirst '#' q <;> simp

theorem questionSplit_shaped {p : List Char} (hp : '?' ∉ p) (a : List Char) :
    questionSplit (p ++ '?' :: a) = (p, a) := by
  unfold questionSplit
  rw [splitFirst_append_self hp]

/-! ## `urlsplit` / `urlparse` / `geturl` on handler-shaped URLs -/

theorem lstrip_shaped {s : List Char} (hne : s ≠ [])
    (h97 : ∀ c ∈ s, 97 ≤ c.toNat) (X : List Char) :
    lstripControlOrSpace (s ++ X) = s ++ X := by
  obtain ⟨c0, s', rfl⟩ := List.exists_cons_of_ne_nil hne
  rw [List.cons_append, lstrip_cons_of_toNat (h97 c0 (List.mem_cons_self c0 s'))]

theorem clean_shaped {s h0 p : List Char} (q : List Char) (hs : goodScheme s = true)
    (hh : goodHost h0 = true) (hp : goodPath p = true) :
    stripUnsafeBytes (lstripControlOrSpace
        (s ++ ':' :: '/' :: '/' :: (h0 ++ (p ++ '?' :: q))))
      = s ++ ':' :: '/' :: '/' :: (h0 ++ (p ++ '?' :: stripUnsafeBytes q)) := by
  obtain ⟨hne, hall⟩ := goodScheme_spec hs
  obtain ⟨-, hallh⟩ := goodHost_spec hh
  obtain ⟨-, hallp⟩ := goodPath_spec hp
  rw [lstrip_shaped hne (fun c hc => (hall c hc).1)]
  rw [stripUnsafe_append, stripUnsafe_id_of
    (fun c hc => not_unsafe_of_toNat (by have := hall c hc; omega))]
  rw [stripUnsafe_cons_keep (by decide), stripUnsafe_cons_keep (by decide),
    stripUnsafe_cons_keep (by decide)]
  rw [stripUnsafe_append, stripUnsafe_id_of (fun c hc => (hallh c hc).2.2.2.2.2.2)]
  rw [stripUnsafe_append, stripUnsafe_id_of (fun c hc => (hallp c hc).2.2.2)]
  rw [stripUnsafe_cons_keep (by decide)]

theorem urlsplitE_shaped (s h0 p q : List Char) (hs : goodScheme s = true)
    (hh : goodHost h0 = true) (hp : goodPath p = true) :
    urlsplitE (mkBase s h0 p ++ '?' :: q) =
      .ok ⟨s, h0, p, queryPartOf (stripUnsafeBytes q), fragPartOf (stripUnsafeBytes q)⟩ := by
  obtain ⟨-, hallh⟩ := goodHost_spec hh
  obtain ⟨⟨p2, hp2⟩, hallp⟩ := goodPath_spec hp
  have hshape : mkBase s h0 p ++ '?' :: q
      = s ++ ':' :: '/' :: '/' :: (h0 ++ (p ++ '?' :: q)) := by
    simp [mkBase, List.append_assoc]
  have hnh : '#' ∉ p := fun hm => (hallp _ hm).2.1 rfl
  have hnq : '?' ∉ p := fun hm => (hallp _ hm).1 rfl
  simp only [urlsplitE]
  rw [hshape, clean_shaped _ hs hh hp, schemeSplit_shaped hs]
  dsimp only
  rw [netlocSplit_shaped hh hp]
  dsimp only
  rw [hashSplit_shaped hnh]
  dsimp only
  rw [questionSplit_shaped hnq]
  dsimp only
  rw [if_pos (checknetlocOk_of_ascii (fun c hc => (hallh c hc).1))]

theorem urlparseE_shaped (s h0 p q : List Char) (hs : goodScheme s = true)
    (hh : goodHost h0 = true) (hp : goodPath p = true) :
    urlparseE (mkBase s h0 p ++ '?' :: q) =
      .ok ⟨s, h0, p, [], queryPartOf (stripUnsafeBytes q),
           fragPartOf (stripUnsafeBytes q)⟩ := by
  obtain ⟨-, hallp⟩ := goodPath_spec hp
  have hns : ';' ∉ p := fun hm => (hallp _ hm).2.2.1 rfl
  have hcont : p.contains ';' = false := by simpa using hns
  simp only [urlparseE]
  rw [urlsplitE_shaped s h0 p q hs hh hp]
  dsimp only
  rw [hcont]
  simp

theorem geturl_shaped (s h0 p qq fr : List Char) (hsne : s ≠ [])
    (hh0 : h0 ≠ []) (hp2 : p.take 1 = ['/']) (hqq : qq ≠ []) :
    geturl ⟨s, h0, p, [], qq, fr⟩
      = mkBase s h0 p ++ '?' :: (qq ++ (if fr = [] then [] else '#' :: fr)) := by
  have hh0e : h0.isEmpty = false := by simpa [List.isEmpty_iff] using hh0
  have hse : s.isEmpty = false := by simpa [List.isEmpty_iff] using hsne
  have hqe : qq.isEmpty = false := by simpa [List.isEmpty_iff] using hqq
  obtain ⟨p2, rfl⟩ : ∃ p2, p = '/' :: p2 := by
    cases p with
    | nil => simp at hp2
    | cons a p2 =>
      simp only [List.take_succ_cons, List.take_zero, List.cons.injEq] at hp2
      exact ⟨p2, by rw [hp2.1]⟩
  cases fr with
  | nil =>
    simp [geturl, hh0e, hse, hqe, mkBase, List.append_assoc]
  | cons f fs =>
    simp [geturl, hh0e, hse, hqe, mkBase, List.append_assoc]

/-! ## The two `search` branches -/

/-- Scheme part of the external MPC URL. -/
def mpcScheme : List Char := "https".data

/-- Host part of the external MPC URL. -/
def mpcHost : List Char := "www.minorplanetcenter.net".data

/-- Path part of the external MPC URL. -/
def mpcPath : List Char := "/db_search/show_object".data

/-- The `object_id=` key of the external MPC URL query string. -/
def objectIdKey : List Char := "object_id=".data

theorem urlparse_geturl_shaped (s h0 p q : List Char) (hs : goodScheme s = true)
    (hh : goodHost h0 = true) (hp : goodPath p = true)
    (hq : queryPartOf (stripUnsafeBytes q) ≠ []) :
    (urlparseE (mkBase s h0 p ++ '?' :: q)).map geturl
      = .ok (mkBase s h0 p ++ '?' :: normFrag (stripUnsafeBytes q)) := by
  rw [urlparseE_shaped s h0 p q hs hh hp]
  have hsne : s ≠ [] := (goodScheme_spec hs).1
  have hh0 : h0 ≠ [] := (goodHost_spec hh).1
  have hp2 : p.take 1 = ['/'] := by
    simp only [goodPath, Bool.and_eq_true] at hp
    exact eq_of_beq hp.1
  simp only [Except.map]
  rw [geturl_shaped s h0 p _ _ hsne hh0 hp2 hq]
  rfl

theorem search_external (base d : List Char) (hsp : ' ' ∈ stripDesignation d) :
    search base d
      = .ok (mpcUrlStart ++ normFrag (stripUnsafeBytes (stripDesignation d))) := by
  have hdec : mpcUrlStart = mkBase mpcScheme mpcHost mpcPath ++ '?' :: objectIdKey := by
    decide
  have hnh : '#' ∉ objectIdKey := by decide
  have hgs : goodScheme mpcScheme = true := by decide
  have hgh : goodHost mpcHost = true := by decide
  have hgp : goodPath mpcPath = true := by decide
  have hneq : ∀ x : List Char, mpcUrlStart ++ x
      = mkBase mpcScheme mpcHost mpcPath ++ '?' :: (objectIdKey ++ x) := by
    intro x
    rw [hdec]
    simp [List.append_assoc]
  have hstrip : ∀ z : List Char, stripUnsafeBytes (objectIdKey ++ z)
      = objectIdKey ++ stripUnsafeBytes z := by
    intro z
    rw [stripUnsafe_append, stripUnsafe_id_of (l := objectIdKey) (by decide)]
  simp only [search]
  rw [if_pos hsp, hneq]
  rw [urlparse_geturl_shaped _ _ _ _ hgs hgh hgp (by
    rw [hstrip, queryPartOf_append_of_not_hash hnh]
    simp [objectIdKey])]
  rw [hstrip, normFrag_append_of_not_hash hnh, hdec]
  simp [List.append_assoc]

theorem urlencodeDesignation_no_hash (d : List Char) : '#' ∉ urlencodeDesignation d := by
  intro hm
  simp only [urlencodeDesignation, List.mem_append] at hm
  rcases hm with hm | hm
  · exact absurd hm (by decide)
  · exact quotePlus_ne_hash _ hm rfl

theorem urlencodeDesignation_clean (d : List Char) :
    stripUnsafeBytes (urlencodeDesignation d) = urlencodeDesignation d := by
  apply stripUnsafe_id_of
  intro c hc
  simp only [urlencodeDesignation, List.mem_append] at hc
  rcases hc with hc | hc
  · exact (by decide : ∀ x ∈ ('d' :: 'e' :: 's' :: 'i' :: 'g' :: 'n' :: 'a' :: 't'
      :: 'i' :: 'o' :: 'n' :: '=' :: ([] : List Char)),
      (!(x == '\t' || x == '\r' || x == '\n')) = true) c hc
  · exact quotePlus_not_unsafe c hc

theorem search_synthetic (s h0 p d : List Char) (hs : goodScheme s = true)
    (hh : goodHost h0 = true) (hp : goodPath p = true)
    (hns : ' ' ∉ stripDesignation d) :
    search (mkBase s h0 p) d
      = .ok (mkBase s h0 p ++ '?' :: urlencodeDesignation d) := by
  simp only [search]
  rw [if_neg hns]
  rw [urlparse_geturl_shaped _ _ _ _ hs hh hp (by
    rw [urlencodeDesignation_clean,
      show urlencodeDesignation d
        = ('d' :: ("esignation=".data ++ quotePlus d)) from by
          simp [urlencodeDesignation]
      ]
    rw [queryPartOf_cons_of_ne (by decide)]
    simp)]
  rw [urlencodeDesignation_clean,
    normFrag_of_not_hash (urlencodeDesignation_no_hash d)]

/-! ## Helper lemmas: the designation strip -/

theorem stripDesignation_prepend (rest : List Char) :
    stripDesignation (designationPrepend ++ rest) = stripDesignation rest :=
  stripDesignation.eq_1 rest

theorem stripDesignation_eq_self {d : List Char} (h : ¬ designationPrepend <:+: d) :
    stripDesignation d = d := by
  induction d using stripDesignation.induct with
  | case1 rest ih =>
    exact absurd ⟨[], rest, rfl⟩ h
  | case2 c cs hnm ih =>
    have hcs : ¬ designationPrepend <:+: cs := fun hi => h (List.infix_cons hi)
    rw [stripDesignation.eq_2 c cs hnm, ih hcs]
  | case3 => rfl

/-- The six characters Python's `str.isspace` accepts in the ASCII range
(space, tab, LF, VT, FF, CR). -/
def isAsciiWhitespace (c : Char) : Bool :=
  c == ' ' || c == '\t' || c == '\n' || c == '\x0b' || c == '\x0c' || c == '\r'

theorem strip_of_whitespace {d : List Char}
    (h : ∀ c ∈ d, isAsciiWhitespace c = true) : stripDesignation d = d := by
  apply stripDesignation_eq_self
  intro hi
  have h2 : '2' ∈ d := hi.subset (by decide)
  exact absurd (h _ h2) (by decide)


/-! ## Round trip of the form encoding -/

theorem hexVal_hexDigitUpper : ∀ n, n < 16 → hexVal (hexDigitUpper n) = some n := by
  decide

theorem formDecodeBytes_pct {b : Nat} (hb : b < 256) (t : List Char) :
    formDecodeBytes (pctByte b ++ t) = (formDecodeBytes t).map (fun bs => b :: bs) := by
  simp only [pctByte, List.cons_append, List.nil_append]
  rw [formDecodeBytes.eq_def]
  dsimp only
  rw [if_pos rfl, hexVal_hexDigitUpper (b / 16) (by omega),
    hexVal_hexDigitUpper (b % 16) (by omega)]
  dsimp only
  have hb2 : 16 * (b / 16) + b % 16 = b := by omega
  simp only [hb2]

theorem formDecodeBytes_pctList {bs : List Nat} (h : ∀ b ∈ bs, b < 256) (t : List Char) :
    formDecodeBytes (bs.flatMap pctByte ++ t)
      = (formDecodeBytes t).map (fun l => bs ++ l) := by
  induction bs with
  | nil =>
    simp only [List.flatMap_nil, List.nil_append]
    cases formDecodeBytes t <;> simp
  | cons b bs2 ih =>
    have hb := h b (List.mem_cons_self b bs2)
    have hbs : ∀ x ∈ bs2, x < 256 := fun x hx => h x (List.mem_cons_of_mem _ hx)
    simp only [List.flatMap_cons, List.append_assoc]
    rw [formDecodeBytes_pct hb, ih hbs]
    cases formDecodeBytes t <;> simp

theorem formDecodeBytes_safe_cons {c : Char} (hne1 : c ≠ '%') (hne2 : c ≠ '+')
    (h128 : c.toNat < 128) (t : List Char) :
    formDecodeBytes (c :: t) = (formDecodeBytes t).map (fun bs => c.toNat :: bs) := by
  rw [formDecodeBytes.eq_def]
  dsimp only
  rw [if_neg hne1, if_neg hne2, if_pos h128]

theorem formDecodeBytes_quotePlusChar (c : Char) (t : List Char) :
    formDecodeBytes (quotePlusChar c ++ t)
      = (formDecodeBytes t).map (fun bs => utf8Bytes c ++ bs) := by
  unfold quotePlusChar
  split_ifs with hsafe hspace
  · have hb := isAlwaysSafe_bounds hsafe
    have h128 : c.toNat < 128 := by omega
    have hne1 : c ≠ '%' := char_ne_of_toNat_ne (by
      have h37 : ('%').toNat = 37 := by decide
      omega)
    have hne2 : c ≠ '+' := char_ne_of_toNat_ne (by
      have h43 : ('+').toNat = 43 := by decide
      omega)
    have hu : utf8Bytes c = [c.toNat] := by
      unfold utf8Bytes
      rw [if_pos h128]
    rw [List.singleton_append, formDecodeBytes_safe_cons hne1 hne2 h128, hu]
    cases formDecodeBytes t <;> simp
  · subst hspace
    have hone : formDecodeBytes ('+' :: t) = (formDecodeBytes t).map (fun bs => 32 :: bs) := by
      rw [formDecodeBytes.eq_def]
      dsimp only
      rw [if_neg (by decide : ¬('+' : Char) = '%'), if_pos rfl]
    rw [List.singleton_append, hone]
    have hu : utf8Bytes ' ' = [32] := by decide
    rw [hu]
    cases formDecodeBytes t <;> simp
  · rw [formDecodeBytes_pctList utf8Bytes_lt]

theorem formDecodeBytes_quotePlus (d : List Char) :
    formDecodeBytes (quotePlus d) = some (d.flatMap utf8Bytes) := by
  induction d with
  | nil => rfl
  | cons c d2 ih =>
    simp only [quotePlus, List.flatMap_cons] at ih ⊢
    rw [formDecodeBytes_quotePlusChar, ih]
    rfl

theorem utf8DecodeStep_utf8Bytes (c : Char) (bs : List Nat) :
    utf8DecodeStep (utf8Bytes c ++ bs) = some (c.toNat, bs) := by
  have hvalid := char_valid_toNat c
  by_cases h1 : c.toNat < 128
  · have hu : utf8Bytes c = [c.toNat] := by
      unfold utf8Bytes
      rw [if_pos h1]
    rw [hu, List.singleton_append]
    simp only [utf8DecodeStep]
    rw [if_pos h1]
  · by_cases h2 : c.toNat < 2048
    · have hu : utf8Bytes c = [192 + c.toNat / 64, 128 + c.toNat % 64] := by
        unfold utf8Bytes
        rw [if_neg h1, if_pos h2]
      rw [hu]
      simp only [List.cons_append, List.nil_append, utf8DecodeStep]
      rw [if_neg (by omega), if_neg (by omega), if_pos (by omega)]
      simp only [decode2]
      rw [if_pos (by omega : 128 ≤ 128 + c.toNat % 64 ∧ 128 + c.toNat % 64 < 192),
        if_pos (by omega)]
      have hn : (192 + c.toNat / 64 - 192) * 64 + (128 + c.toNat % 64 - 128)
          = c.toNat := by omega
      rw [hn]
    · by_cases h3 : c.toNat < 65536
      · have hu : utf8Bytes c = [224 + c.toNat / 4096, 128 + c.toNat / 64 % 64,
            128 + c.toNat % 64] := by
          unfold utf8Bytes
          rw [if_neg h1, if_neg h2, if_pos h3]
        rw [hu]
        simp only [List.cons_append, List.nil_append, utf8DecodeStep]
        rw [if_neg (by omega), if_neg (by omega), if_neg (by omega),
          if_pos (by omega)]
        simp only [decode3]
        rw [if_pos (by omega :
          (128 ≤ 128 + c.toNat / 64 % 64 ∧ 128 + c.toNat / 64 % 64 < 192)
            ∧ (128 ≤ 128 + c.toNat % 64 ∧ 128 + c.toNat % 64 < 192))]
        rw [if_pos (by omega)]
        have hn : (224 + c.toNat / 4096 - 224) * 4096
            + (128 + c.toNat / 64 % 64 - 128) * 64 + (128 + c.toNat % 64 - 128)
            = c.toNat := by omega
        rw [hn]
      · have hu : utf8Bytes c = [240 + c.toNat / 262144, 128 + c.toNat / 4096 % 64,
            128 + c.toNat / 64 % 64, 128 + c.toNat % 64] := by
          unfold utf8Bytes
          rw [if_neg h1, if_neg h2, if_neg h3]
        rw [hu]
        simp only [List.cons_append, List.nil_append, utf8DecodeStep]
        rw [if_neg (by omega), if_neg (by omega), if_neg (by omega),
          if_neg (by omega), if_pos (by omega)]
        simp only [decode4]
        rw [if_pos (by omega :
          (128 ≤ 128 + c.toNat / 4096 % 64 ∧ 128 + c.toNat / 4096 % 64 < 192)
            ∧ (128 ≤ 128 + c.toNat / 64 % 64 ∧ 128 + c.toNat / 64 % 64 < 192)
            ∧ (128 ≤ 128 + c.toNat % 64 ∧ 128 + c.toNat % 64 < 192))]
        rw [if_pos (by omega)]
        have hn : (240 + c.toNat / 262144 - 240) * 262144
            + (128 + c.toNat / 4096 % 64 - 128) * 4096
            + (128 + c.toNat / 64 % 64 - 128) * 64 + (128 + c.toNat % 64 - 128)
            = c.toNat := by omega
        rw [hn]

theorem utf8Decode_cons_step {b : Nat} {rest : List Nat} {v : Nat} {rest2 : List Nat}
    (h : utf8DecodeStep (b :: rest) = some (v, rest2)) :
    utf8Decode (b :: rest) = (utf8Decode rest2).map (fun cs => Char.ofNat v :: cs) := by
  rw [utf8Decode.eq_def]
  dsimp only
  split
  · next v2 rest3 heq =>
    rw [h] at heq
    injection heq with h6
    injection h6 with h7 h8
    rw [h7, h8]
  · next heq =>
    rw [h] at heq
    exact Option.noConfusion heq

theorem utf8Decode_utf8Bytes_append (c : Char) (bs : List Nat) :
    utf8Decode (utf8Bytes c ++ bs) = (utf8Decode bs).map (fun cs => c :: cs) := by
  have hne : utf8Bytes c ≠ [] := by
    unfold utf8Bytes
    split_ifs <;> simp
  obtain ⟨b, r, hbr⟩ := List.exists_cons_of_ne_nil hne
  have hstep := utf8DecodeStep_utf8Bytes c bs
  rw [hbr, List.cons_append] at hstep
  rw [hbr, List.cons_append, utf8Decode_cons_step hstep, Char.ofNat_toNat]

theorem utf8Decode_flatMap (d : List Char) :
    utf8Decode (d.flatMap utf8Bytes) = some d := by
  induction d with
  | nil => rw [List.flatMap_nil, utf8Decode]
  | cons c d2 ih =>
    simp only [List.flatMap_cons]
    rw [utf8Decode_utf8Bytes_append, ih]
    rfl

theorem formDecode_quotePlus (d : List Char) : formDecode (quotePlus d) = some d := by
  unfold formDecode
  rw [formDecodeBytes_quotePlus]
  exact utf8Decode_flatMap d

/-! ## The claims -/

/-- C1 (counterexample): the claim says the stripped value is URL-encoded
into the external URL, so that input `"2011 1001 T-2"` yields
`object_id=1001+T-2`.  In fact the handler interpolates the stripped value
verbatim: the returned URL carries `object_id=1001 T-2` with a literal
space, which differs from the claimed URL. -/
theorem c1_counterexample :
    search exampleBase "2011 1001 T-2".data
      = .ok "https://www.minorplanetcenter.net/db_search/show_object?object_id=1001 T-2".data
    ∧ "https://www.minorplanetcenter.net/db_search/show_object?object_id=1001 T-2".data
      ≠ "https://www.minorplanetcenter.net/db_search/show_object?object_id=1001+T-2".data := by
  exact ⟨rfl, by decide⟩

/-- C1 (amended): for every designation whose stripped form contains at
least one space, `search` returns
`https://www.minorplanetcenter.net/db_search/show_object?object_id={stripped}`
with the stripped value inserted verbatim rather than URL-encoded; the
only changes made by the `urlparse`/`geturl` round trip are that tab, CR
and LF characters are removed and that a `'#'` that is the first `'#'` of
the stripped value and its last character is dropped (empty fragment). -/
theorem c1_claim (base d : List Char) (hsp : ' ' ∈ stripDesignation d) :
    search base d
      = .ok (mpcUrlStart ++ normFrag (stripUnsafeBytes (stripDesignation d))) :=
  search_external base d hsp

/-- C1 (witness): the amended claim evaluated at `"2011 1001 T-2"`. -/
theorem c1_witness :
    ' ' ∈ stripDesignation "2011 1001 T-2".data
    ∧ search exampleBase "2011 1001 T-2".data
      = .ok (mpcUrlStart ++ normFrag (stripUnsafeBytes
          (stripDesignation "2011 1001 T-2".data))) :=
  ⟨by decide, c1_claim exampleBase _ (by decide)⟩

/-- C2: for every designation whose stripped form contains no space,
`search` returns the same-origin synthetic URL
`{base}?designation={original}` carrying the original, unstripped
designation URL-encoded (via `urlencode`/`quote_plus`) as the
`designation` query value, for every well-formed base URL of the
synthetic-object route. -/
theorem c2_claim (scheme host path d : List Char) (hs : goodScheme scheme = true)
    (hh : goodHost host = true) (hp : goodPath path = true)
    (hns : ' ' ∉ stripDesignation d) :
    search (mkBase scheme host path) d
      = .ok (mkBase scheme host path ++ '?' :: urlencodeDesignation d) :=
  search_synthetic scheme host path d hs hh hp hns

/-- C2 (witness): input `"2011 12345"` (stripped `"12345"`, no space)
yields `?designation=2011+12345` with the original value retained. -/
theorem c2_witness :
    goodScheme "http".data = true
    ∧ goodHost "example.org".data = true
    ∧ goodPath "/mpc-lookup/synthetic_object".data = true
    ∧ ' ' ∉ stripDesignation "2011 12345".data
    ∧ search (mkBase "http".data "example.org".data "/mpc-lookup/synthetic_object".data)
        "2011 12345".data
      = .ok "http://example.org/mpc-lookup/synthetic_object?designation=2011+12345".data :=
  ⟨by decide, by decide, by decide, by decide,
    (c2_claim "http".data "example.org".data "/mpc-lookup/synthetic_object".data
        "2011 12345".data (by decide) (by decide) (by decide) (by decide)).trans
      (congrArg Except.ok (by decide))⟩

/-- C3 (counterexample): the claim says a whitespace-only designation
strips to the empty string and is routed to the synthetic branch.  In
fact stripping leaves `" "` unchanged (it is not empty), and since it
contains a space the call is routed to the external branch. -/
theorem c3_counterexample :
    stripDesignation " ".data = " ".data
    ∧ " ".data ≠ ([] : List Char)
    ∧ search exampleBase " ".data
      = .ok "https://www.minorplanetcenter.net/db_search/show_object?object_id= ".data := by
  exact ⟨by decide, by decide, rfl⟩

/-- C3 (amended): an empty-string designation strips to the empty string,
which contains no space, and is routed to the synthetic branch.  A
whitespace-only designation is left unchanged by stripping, so if it
contains a space character it is routed to the external branch, and only
a whitespace-only designation without a space (e.g. all tabs) falls
through to the synthetic branch. -/
theorem c3_claim (scheme host path : List Char) (hs : goodScheme scheme = true)
    (hh : goodHost host = true) (hp : goodPath path = true) :
    stripDesignation [] = ([] : List Char)
    ∧ search (mkBase scheme host path) []
      = .ok (mkBase scheme host path ++ '?' :: urlencodeDesignation [])
    ∧ (∀ d : List Char, (∀ c ∈ d, isAsciiWhitespace c = true) →
        stripDesignation d = d
        ∧ (' ' ∈ d → search (mkBase scheme host path) d
            = .ok (mpcUrlStart ++ stripUnsafeBytes d))
        ∧ (' ' ∉ d → search (mkBase scheme host path) d
            = .ok (mkBase scheme host path ++ '?' :: urlencodeDesignation d))) := by
  refine ⟨rfl, search_synthetic _ _ _ _ hs hh hp (by decide), fun d hws => ?_⟩
  have hstrip : stripDesignation d = d := strip_of_whitespace hws
  have hnh : '#' ∉ stripUnsafeBytes d := by
    intro hm
    have hd : '#' ∈ d := (List.mem_filter.mp hm).1
    exact absurd (hws _ hd) (by decide)
  refine ⟨hstrip, fun hsp => ?_, fun hns => ?_⟩
  · rw [search_external _ _ (by rw [hstrip]; exact hsp), hstrip,
      normFrag_of_not_hash hnh]
  · exact search_synthetic _ _ _ _ hs hh hp (by rw [hstrip]; exact hns)

/-- C3 (witness): the amended claim evaluated at the empty designation and
at the single-space designation. -/
theorem c3_witness :
    (∀ c ∈ " ".data, isAsciiWhitespace c = true)
    ∧ search (mkBase "http".data "example.org".data "/mpc-lookup/synthetic_object".data) []
      = .ok (mkBase "http".data "example.org".data "/mpc-lookup/synthetic_object".data
          ++ '?' :: urlencodeDesignation [])
    ∧ stripDesignation " ".data = " ".data
    ∧ search (mkBase "http".data "example.org".data "/mpc-lookup/synthetic_object".data)
        " ".data
      = .ok (mpcUrlStart ++ stripUnsafeBytes " ".data) := by
  have h := c3_claim "http".data "example.org".data "/mpc-lookup/synthetic_object".data
    (by decide) (by decide) (by decide)
  have h2 := h.2.2 " ".data (by decide)
  exact ⟨by decide, h.2.1, h2.1, h2.2.1 (by decide)⟩

/-- C4: the prefix removal is substring-based and not anchored to the
start: `"X2011 Y"` strips to `"XY"`, and any designation in which the
literal `"2011 "` does not occur as a contiguous substring is left
unchanged by the stripping step. -/
theorem c4_claim :
    stripDesignation "X2011 Y".data = "XY".data
    ∧ ∀ d : List Char, ¬ designationPrepend <:+: d → stripDesignation d = d :=
  ⟨by decide, fun _ h => stripDesignation_eq_self h⟩

/-- C4 (witness): `"1998 QE2"` contains no occurrence of `"2011 "` and is
unchanged by stripping. -/
theorem c4_witness :
    ¬ designationPrepend <:+: "1998 QE2".data
    ∧ stripDesignation "1998 QE2".data = "1998 QE2".data :=
  ⟨by decide, c4_claim.2 "1998 QE2".data (by decide)⟩

/-- C5: for every designation and every well-formed base URL, `search`
returns exactly one of the two URL shapes, selected by the space check on
the stripped designation: the external minorplanetcenter.net database URL
when the stripped form contains a space, and the local synthetic-object
URL otherwise; no input produces any other result. -/
theorem c5_claim (scheme host path d : List Char) (hs : goodScheme scheme = true)
    (hh : goodHost host = true) (hp : goodPath path = true) :
    search (mkBase scheme host path) d
      = .ok (if ' ' ∈ stripDesignation d
          then mpcUrlStart ++ normFrag (stripUnsafeBytes (stripDesignation d))
          else mkBase scheme host path ++ '?' :: urlencodeDesignation d) := by
  by_cases hsp : ' ' ∈ stripDesignation d
  · rw [if_pos hsp]
    exact search_external _ _ hsp
  · rw [if_neg hsp]
    exact search_synthetic _ _ _ _ hs hh hp hsp

/-- C5 (witness): the shape theorem evaluated at `"1998 QE2"`, which takes
the external arm. -/
theorem c5_witness :
    goodScheme "http".data = true
    ∧ search (mkBase "http".data "example.org".data "/mpc-lookup/synthetic_object".data)
        "1998 QE2".data
      = .ok "https://www.minorplanetcenter.net/db_search/show_object?object_id=1998 QE2".data :=
  ⟨by decide,
    (c5_claim "http".data "example.org".data "/mpc-lookup/synthetic_object".data
        "1998 QE2".data (by decide) (by decide) (by decide)).trans
      (congrArg Except.ok (by decide))⟩

/-- C6: for every non-empty designation and every well-formed base URL,
`search` returns a URL and never reaches an error: none of the
`ValueError` paths of `urlparse` is reachable from the handler. -/
theorem c6_claim (scheme host path d : List Char) (hs : goodScheme scheme = true)
    (hh : goodHost host = true) (hp : goodPath path = true) (hne : d ≠ []) :
    ∃ u, search (mkBase scheme host path) d = .ok u := by
  clear hne
  by_cases hsp : ' ' ∈ stripDesignation d
  · exact ⟨_, search_external _ _ hsp⟩
  · exact ⟨_, search_synthetic _ _ _ _ hs hh hp hsp⟩

/-- C6 (witness): the no-error guarantee evaluated at `"2011 12345"`. -/
theorem c6_witness :
    ("2011 12345".data ≠ ([] : List Char))
    ∧ ∃ u, search (mkBase "http".data "example.org".data
        "/mpc-lookup/synthetic_object".data) "2011 12345".data = .ok u :=
  ⟨by decide, c6_claim "http".data "example.org".data
    "/mpc-lookup/synthetic_object".data "2011 12345".data
    (by decide) (by decide) (by decide) (by decide)⟩

/-- C7: resolution is deterministic: two calls to `search` with the same
designation under the same request context (the same base URL for the
synthetic-object route) yield identical output, the embedding being a
pure function of the pair (base, designation) with no other state. -/
theorem c7_claim (b1 d1 b2 d2 : List Char) (hb : b1 = b2) (hd : d1 = d2) :
    search b1 d1 = search b2 d2 := by
  rw [hb, hd]

/-- C7 (witness): determinism evaluated at `"2011 12345"`. -/
theorem c7_witness :
    search exampleBase "2011 12345".data = search exampleBase "2011 12345".data :=
  c7_claim exampleBase "2011 12345".data exampleBase "2011 12345".data rfl rfl

/-- C8: for every designation, `get_synthetic_object` returns status 200
and an HTML body that contains the designation as literal text and
contains the phrase "synthetic object". -/
theorem c8_claim (d : List Char) :
    (get_synthetic_object d).status_code = 200
    ∧ d <:+: (get_synthetic_object d).content
    ∧ "synthetic object".data <:+: (get_synthetic_object d).content := by
  refine ⟨rfl, ⟨synthBodyHead, synthBodyTail, rfl⟩, ?_⟩
  have h1 : "synthetic object".data <:+: synthBodyTail := by decide
  have h2 : synthBodyTail <:+: (get_synthetic_object d).content :=
    ⟨synthBodyHead ++ d, [], by simp [get_synthetic_object]⟩
  exact h1.trans h2

/-- C9: the stripping step removes the occurrences of `"2011 "` by a
left-to-right scan, not only the first one: every occurrence at the front
is removed (`strip ("2011 " ++ rest) = strip rest`), and the
double-prefixed input `"2011 2011 12345"` strips all the way to
`"12345"`, contains no space, and is therefore classified as synthetic. -/
theorem c9_claim :
    (∀ rest : List Char,
      stripDesignation (designationPrepend ++ rest) = stripDesignation rest)
    ∧ stripDesignation "2011 2011 12345".data = "12345".data
    ∧ ' ' ∉ stripDesignation "2011 2011 12345".data
    ∧ search exampleBase "2011 2011 12345".data
      = .ok "http://example.org/mpc-lookup/synthetic_object?designation=2011+2011+12345".data :=
  ⟨stripDesignation_prepend, by decide, by decide, rfl⟩

/-- C10: in the synthetic branch the query value round-trips: `search`
returns the synthetic URL whose `designation` value is
`quote_plus(designation)`, and standard
`application/x-www-form-urlencoded` decoding (plus/percent decoding
followed by UTF-8 decoding) of that value recovers the original
designation exactly, for all characters including spaces, `&`, `=` and
`#`. -/
theorem c10_claim (scheme host path d : List Char) (hs : goodScheme scheme = true)
    (hh : goodHost host = true) (hp : goodPath path = true)
    (hns : ' ' ∉ stripDesignation d) :
    search (mkBase scheme host path) d
      = .ok (mkBase scheme host path ++ '?' :: ("designation=".data ++ quotePlus d))
    ∧ formDecode (quotePlus d) = some d :=
  ⟨(search_synthetic scheme host path d hs hh hp hns).trans rfl,
    formDecode_quotePlus d⟩

/-- C10 (witness): the round trip evaluated at `"2011 a&b=c#d"`, whose
encoded query value is `2011+a%26b%3Dc%23d`. -/
theorem c10_witness :
    (' ' ∉ stripDesignation "2011 a&b=c#d".data)
    ∧ search (mkBase "http".data "example.org".data
        "/mpc-lookup/synthetic_object".data) "2011 a&b=c#d".data
      = .ok "http://example.org/mpc-lookup/synthetic_object?designation=2011+a%26b%3Dc%23d".data
    ∧ formDecode "2011+a%26b%3Dc%23d".data = some "2011 a&b=c#d".data := by
  have h := c10_claim "http".data "example.org".data
    "/mpc-lookup/synthetic_object".data "2011 a&b=c#d".data
    (by decide) (by decide) (by decide) (by decide)
  refine ⟨by decide, h.1.trans (congrArg Except.ok (by decide)), ?_⟩
  exact (congrArg formDecode
    (by decide : "2011+a%26b%3Dc%23d".data = quotePlus "2011 a&b=c#d".data)).trans h.2
